import Mathlib

/-!
Shallow embedding of the `pkgsyms` Go repository.

The runtime registry (`src/symbol.go`, `src/error.go`) is embedded in the
namespace `pkgsyms`; the generator command (the unnamed `package main`
sources) is embedded in the namespaces `gen` (the version that sorts its
descriptor list before emitting) and `genLegacy` (the version that emits
descriptors in scan order).

Modeling conventions:
* Go `interface{}` values are modeled by the inductive `pkgsyms.GoVal`.
* Go maps are modeled as association lists without duplicate keys
  (`mapFind` / `mapPut`); a nil map is modeled as `none` of
  `Option (List (String × _))`, matching the source's explicit nil checks.
  A nil slice behaves exactly like an empty slice for every operation the
  source performs (len, append, index), so slices are plain lists.
* Go runtime panics (index out of range, failed type assertion, reflect
  kind errors) are modeled explicitly as `none` / `.panic` outcomes.
* `sync.Map` and `sync.Mutex` give the source its concurrency discipline;
  the embedding is the sequential semantics of the same operations, with
  the global `pkgs` index threaded as an explicit state value.
-/

namespace pkgsyms

/-- Runtime type descriptor, modeling the fragment of `reflect.Type`
the source touches: a type is a pointer type or a named type. -/
inductive RType where
| ptr : RType → RType
| named : String → RType
deriving DecidableEq

/-- Go `interface{}` value, restricted to the shapes the claims exercise.
The `tag` of a value stands for its dynamic type. -/
inductive GoVal where
| vInt : Int → GoVal
| vStr : String → GoVal
| vBool : Bool → GoVal
| vFunc : Nat → GoVal
| vType : RType → GoVal
deriving DecidableEq

/-- Dynamic-type tag of an interface value. -/
def GoVal.tag : GoVal → Nat
| .vInt _ => 0
| .vStr _ => 1
| .vBool _ => 2
| .vFunc _ => 3
| .vType _ => 4

/-- Observational view of the `Symbol` interface (src/symbol.go): a Symbol
has a `Name() string` and a `Get() interface{}`; an interface value is, for
the registry's purposes, the pair of its method results. -/
structure Symbol where
  Name : String
  Get : GoVal
deriving DecidableEq

/-- Read of a Go map modeled as an association list: `v, ok := m[k]`. -/
def mapFind {α : Type} : List (String × α) → String → Option α
| [], _ => none
| (k, v) :: rest, n => if k = n then some v else mapFind rest n

/-- Go map assignment `m[k] = v`: overwrite the binding if the key is
present, otherwise append a new binding. -/
def mapPut {α : Type} : List (String × α) → String → α → List (String × α)
| [], k, v => [(k, v)]
| (k0, v0) :: rest, k, v =>
  if k0 = k then (k, v) :: rest else (k0, v0) :: mapPut rest k v

/-- NotFound error value (src/error.go): which package and/or symbol was
missing.  The Go zero value of a field is the empty string. -/
structure NotFound where
  Pkg : String
  Sym : String
deriving DecidableEq

/-- Model of `fmt.Sprintf("%q", s)` for the names that occur in this
repository: the string wrapped in double quotes, with backslash and double
quote escaped.  (The `%q` escapes for non-printable runes are not needed by
any name the code quotes.) -/
def goQuote (s : String) : String :=
  "\"" ++ String.join (s.data.map fun c =>
    if c = '"' then "\\\"" else if c = '\\' then "\\\\" else String.singleton c) ++ "\""

/-- Error rendering (src/error.go `NotFound.Error`): each populated field
is replaced by its labeled, quoted form and the pieces are joined with the
trailing literal "not found". -/
def NotFound.Error (nf : NotFound) : String :=
  let p := if nf.Pkg.length > 0 then "package " ++ goQuote nf.Pkg ++ ": " else nf.Pkg
  let s := if nf.Sym.length > 0 then "symbol " ++ goQuote nf.Sym ++ ": " else nf.Sym
  p ++ s ++ "not found"

/-- Collection of symbols (src/symbol.go `Symbols`): `names` maps a symbol
name to its index in `slice`.  `none` models the nil map of the Go zero
value; the mutex guards have no sequential content. -/
structure Symbols where
  names : Option (List (String × Nat))
  slice : List Symbol
deriving DecidableEq

/-- Constructor `MakeSymbols` (src/symbol.go): capacity only affects
allocation, so both branches produce an empty collection with a non-nil
map. -/
def MakeSymbols (capacity : Int) : Symbols :=
  if capacity < 0 then { names := some [], slice := [] }
  else { names := some [], slice := [] }

/-- Go zero value of `Symbols`: nil map, nil slice. -/
def zeroSymbols : Symbols := { names := none, slice := [] }

/-- Outcome of `Symbols.Lookup`: the symbol, a NotFound error, or a Go
runtime panic (index out of range). -/
inductive LookupResult where
| ok : Symbol → LookupResult
| err : NotFound → LookupResult
| panic : LookupResult
deriving DecidableEq

/-- Method `Symbols.Lookup` (src/symbol.go): nil map and missing key both
return `NotFound{Sym: name}`; a hit indexes `slice`, which panics when the
index is out of range. -/
def Symbols.Lookup (syms : Symbols) (name : String) : LookupResult :=
  match syms.names with
  | none => .err { Pkg := "", Sym := name }
  | some m =>
    match mapFind m name with
    | none => .err { Pkg := "", Sym := name }
    | some i =>
      match syms.slice[i]? with
      | some s => .ok s
      | none => .panic

/-- Loop body of `Symbols.Add` (src/symbol.go): fold over the arguments,
skipping any symbol whose name is already bound, otherwise binding the
name to the next slice index and appending the symbol. -/
def addAll : List (String × Nat) → List Symbol → List Symbol →
    List (String × Nat) × List Symbol
| m, slice, [] => (m, slice)
| m, slice, s :: rest =>
  match mapFind m s.Name with
  | some _ => addAll m slice rest
  | none => addAll (mapPut m s.Name slice.length) (slice ++ [s]) rest

/-- Method `Symbols.Add` (src/symbol.go): lazily initializes the nil map
(and resets the slice to a fresh empty one) before the loop.  The method
has no error result in the source; correspondingly it is a total function
into `Symbols`. -/
def Symbols.Add (syms : Symbols) (ss : List Symbol) : Symbols :=
  match syms.names with
  | none =>
    let p := addAll [] [] ss
    { names := some p.1, slice := p.2 }
  | some m =>
    let p := addAll m syms.slice ss
    { names := some p.1, slice := p.2 }

/-- Constant symbol (src/symbol.go `Const`). -/
structure Const where
  name : String
  value : GoVal
deriving DecidableEq

/-- Constructor `MakeConst`. -/
def MakeConst (name : String) (value : GoVal) : Const :=
  { name := name, value := value }

/-- Method `Const.Name`. -/
def Const.Name (c : Const) : String := c.name

/-- Method `Const.Get`. -/
def Const.Get (c : Const) : GoVal := c.value

/-- The interface value a `Const` presents when used as a `Symbol`. -/
def Const.toSymbol (c : Const) : Symbol := { Name := c.Name, Get := c.Get }

/-- Function symbol (src/symbol.go `Func`). -/
structure Func where
  name : String
  fval : GoVal
deriving DecidableEq

/-- Constructor `MakeFunc`. -/
def MakeFunc (name : String) (fval : GoVal) : Func :=
  { name := name, fval := fval }

/-- Method `Func.Name`. -/
def Func.Name (f : Func) : String := f.name

/-- Method `Func.Get`. -/
def Func.Get (f : Func) : GoVal := f.fval

/-- The interface value a `Func` presents when used as a `Symbol`. -/
def Func.toSymbol (f : Func) : Symbol := { Name := f.Name, Get := f.fval }

/-- Type symbol (src/symbol.go `Type`; the source name `Type` is a Lean
keyword, hence `TypeSym`). -/
structure TypeSym where
  name : String
  rtyp : RType
deriving DecidableEq

/-- Model of `reflect.TypeOf(pval).Elem()`: the element type of a pointer
type; calling Elem on a non-pointer panics (`none`). -/
def reflectElem : RType → Option RType
| .ptr t => some t
| .named _ => none

/-- Constructor `MakeType` (src/symbol.go): takes the dynamic type of the
`(*T)(nil)` argument and unwraps one pointer. -/
def MakeType (name : String) (pval : RType) : Option TypeSym :=
  (reflectElem pval).map fun t => { name := name, rtyp := t }

/-- Method `Type.Name`. -/
def TypeSym.Name (t : TypeSym) : String := t.name

/-- Method `Type.Get`: the wrapped reflect.Type as an interface value. -/
def TypeSym.Get (t : TypeSym) : GoVal := .vType t.rtyp

/-- The interface value a `Type` presents when used as a `Symbol`. -/
def TypeSym.toSymbol (t : TypeSym) : Symbol := { Name := t.Name, Get := t.Get }

/-- Addressable storage for package-level variables: a heap of interface
values indexed by address.  Go cells are typed; a cell's type is its
value's tag. -/
abbrev Heap := List GoVal

/-- Variable symbol (src/symbol.go `Var`): a name and the address of the
wrapped variable.  The source defines methods `Get` and `Set` on `Var` and
no others; in particular it defines no `Name` method and no `MakeVar`
constructor, although the generator emits `pkgsyms.MakeVar(...)` calls. -/
structure Var where
  name : String
  addr : Nat
deriving DecidableEq

/-- Method `Var.Get` (src/symbol.go): read through the stored address
(`reflect.ValueOf(v.addr).Elem().Interface()`); an invalid address
panics (`none`). -/
def Var.Get (v : Var) (h : Heap) : Option GoVal := h[v.addr]?

/-- Method `Var.Set` (src/symbol.go): write through the stored address
(`reflect.ValueOf(v.addr).Elem().Set(...)`); an invalid address or a value
whose dynamic type does not match the cell's type panics (`none`). -/
def Var.Set (v : Var) (h : Heap) (val : GoVal) : Option Heap :=
  match h[v.addr]? with
  | none => none
  | some old => if old.tag = val.tag then some (h.set v.addr val) else none

/-- Package entry (src/symbol.go `Package`): a name plus the embedded
`Symbols` collection. -/
structure Package where
  Name : String
  Symbols : Symbols
deriving DecidableEq

/-- The process-wide `pkgs sync.Map`, threaded explicitly: a map from
package names to their entries. -/
abbrev PkgIndex := List (String × Package)

/-- Function `Of` (src/symbol.go): `Load`, and on a miss construct a fresh
entry (zero-valued `Symbols`) and `LoadOrStore` it.  Sequentially the
second load of `LoadOrStore` repeats the result of the first `Load`, so a
miss always stores the fresh entry. -/
def Of (st : PkgIndex) (name : String) : Package × PkgIndex :=
  match mapFind st name with
  | some p => (p, st)
  | none =>
    let pkg : Package := { Name := name, Symbols := zeroSymbols }
    (pkg, mapPut st name pkg)

/-- Function `Lookup` (src/symbol.go): read-only `Load`; a miss returns
`NotFound{Pkg: name}` and the index is returned unchanged. -/
def Lookup (st : PkgIndex) (name : String) :
    (Except NotFound Package) × PkgIndex :=
  match mapFind st name with
  | none => (.error { Pkg := name, Sym := "" }, st)
  | some p => (.ok p, st)

end pkgsyms

namespace goast

/-- Token of a `*ast.GenDecl` (go/token): IMPORT, CONST, TYPE or VAR. -/
inductive Tok where
| TYPE : Tok
| CONST : Tok
| VAR : Tok
| IMPORT : Tok
deriving DecidableEq

/-- An `*ast.TypeSpec`: the declared type name.  (The type body cannot
contain further declarations, so it is not represented.) -/
structure TypeSpec where
  Name : String
deriving DecidableEq

/-- An `*ast.ValueSpec`: the declared names, the optional explicit type
annotation, and the initializer expressions.  Expressions are represented
by their printed form, which is exactly what `printer.Fprint` recovers
from them (printing a well-formed node never fails in this model). -/
structure ValueSpec where
  -- the source field `Type` is a Lean keyword, hence `typ`
  Names : List String
  typ : Option String
  Values : List String
deriving DecidableEq

/-- An `ast.Spec` inside a GenDecl. -/
inductive Spec where
| typeSpec : TypeSpec → Spec
| valueSpec : ValueSpec → Spec
deriving DecidableEq

/-- A statement in a function body.  Go's grammar only allows a GenDecl
(const/type/var group) as the declaration of an `*ast.DeclStmt`; every
statement without nested declarations is collapsed to `otherStmt`. -/
inductive GoStmt where
| declStmt : Tok → List Spec → GoStmt
| otherStmt : GoStmt
deriving DecidableEq

/-- A top-level `ast.Decl`: a GenDecl or a FuncDecl.  `recv` is whether
the function has a receiver (`n.Recv != nil`). -/
inductive GoDecl where
| genDecl : Tok → List Spec → GoDecl
| funcDecl : (recv : Bool) → (name : String) → (body : List GoStmt) → GoDecl
deriving DecidableEq

/-- A parsed file: its top-level declarations (the only `File` children
that can produce descriptors). -/
abbrev GoFile := List GoDecl

/-- Model of `ast.Ident.IsExported` (`token.IsExported`): the name starts
with an upper-case letter.  (The source uses `unicode.IsUpper` of the
first rune; every name in this development is ASCII.) -/
def isExported (name : String) : Bool :=
  match name.data with
  | [] => false
  | c :: _ => c.isUpper

end goast

namespace gen

open goast

/-- Descriptor kind ordinals of the sorting generator (`declKind`):
badDecl, constDecl, typeDecl, funcDecl, varDecl in iota order. -/
inductive declKind where
| badDecl : declKind
| constDecl : declKind
| typeDecl : declKind
| funcDecl : declKind
| varDecl : declKind
deriving DecidableEq

/-- The iota value of a `declKind` (a Go `int`). -/
def declKind.toInt : declKind → Int
| .badDecl => 0
| .constDecl => 1
| .typeDecl => 2
| .funcDecl => 3
| .varDecl => 4

/-- A declaration descriptor produced by the scan (`decl`).  The source
field `Type` is a Lean keyword, hence `typ`; the generator back-pointer
`g` only feeds the rendering of generated code and is dropped. -/
structure decl where
  kind : declKind
  Name : String
  typ : String := ""
deriving DecidableEq

/-- TYPE branch of `generator.inspect`: each spec is asserted to be a
`*ast.TypeSpec` (a different spec panics, `none`); exported names yield a
`typeDecl` descriptor.  The branch returns false: no descent. -/
def typeSpecsDecls : List Spec → Option (List decl)
| [] => some []
| .valueSpec _ :: _ => none
| .typeSpec ts :: rest =>
  match typeSpecsDecls rest with
  | none => none
  | some ds =>
    some (if isExported ts.Name then { kind := .typeDecl, Name := ts.Name } :: ds else ds)

/-- Inner loop of the CONST/VAR branch over one ValueSpec's names
(`for i, id := range vs.Names`): unexported names are skipped; the type
expression is the explicit annotation or, when absent, the printed
initializer `vs.Values[i]` (out of range panics, `none`). -/
def valueNamesDecls (kind : declKind) (typ : Option String) (values : List String) :
    Nat → List String → Option (List decl)
| _, [] => some []
| i, id :: rest =>
  if isExported id then
    match typ.orElse fun _ => values[i]? with
    | none => none
    | some tp =>
      match valueNamesDecls kind typ values (i + 1) rest with
      | none => none
      | some ds => some ({ kind := kind, Name := id, typ := tp } :: ds)
  else valueNamesDecls kind typ values (i + 1) rest

/-- CONST/VAR branch of `generator.inspect` over the group's specs: each
spec is asserted to be a `*ast.ValueSpec` (a different spec panics,
`none`).  The branch returns false: no descent. -/
def valueSpecsDecls (kind : declKind) : List Spec → Option (List decl)
| [] => some []
| .typeSpec _ :: _ => none
| .valueSpec vs :: rest =>
  match valueNamesDecls kind vs.typ vs.Values 0 vs.Names with
  | none => none
  | some ds =>
    match valueSpecsDecls kind rest with
    | none => none
    | some ds2 => some (ds ++ ds2)

/-- The `*ast.GenDecl` case of `generator.inspect`.  TYPE/CONST/VAR are
handled and return false (no descent into the group); any other token
falls through to `return true`, but the children of an unhandled GenDecl
(import specs) match no case of inspect, so descending yields nothing. -/
def inspectGen : Tok → List Spec → Option (List decl)
| .TYPE, specs => typeSpecsDecls specs
| .CONST, specs => valueSpecsDecls .constDecl specs
| .VAR, specs => valueSpecsDecls .varDecl specs
| .IMPORT, _ => some []

/-- Harvest of `ast.Inspect` over one statement of a function body: a
DeclStmt's GenDecl is visited by the same `inspect` case as a top-level
GenDecl; other statements contribute nothing. -/
def inspectStmt : GoStmt → Option (List decl)
| .declStmt tok specs => inspectGen tok specs
| .otherStmt => some []

/-- Harvest of `ast.Inspect` over a function body, in statement order. -/
def inspectBody : List GoStmt → Option (List decl)
| [] => some []
| st :: rest =>
  match inspectStmt st, inspectBody rest with
  | some a, some b => some (a ++ b)
  | _, _ => none

/-- Harvest of `ast.Inspect(d, g.inspect)` for one top-level declaration.
A FuncDecl with a receiver, or with an unexported name, returns true, so
Inspect descends into its children — including the body, whose nested
declarations are then scanned.  An exported receiver-less FuncDecl appends
one `funcDecl` descriptor and returns false (no descent). -/
def inspectDecl : GoDecl → Option (List decl)
| .genDecl tok specs => inspectGen tok specs
| .funcDecl recv name body =>
  if recv then inspectBody body
  else if !isExported name then inspectBody body
  else some [{ kind := .funcDecl, Name := name }]

/-- Harvest of `generator.generate` over a file's top-level declarations
(the File node itself matches no case of inspect, so Inspect descends
into its declaration list). -/
def scanFile : GoFile → Option (List decl)
| [] => some []
| d :: rest =>
  match inspectDecl d, scanFile rest with
  | some a, some b => some (a ++ b)
  | _, _ => none

/-- Model of Go `strings.Compare`: ordinal comparison returning -1, 0 or
+1.  (Go compares UTF-8 bytes, Lean compares code points; UTF-8 preserves
code-point order, so the two orders agree.) -/
def stringsCompare (a b : String) : Int :=
  if a < b then -1 else if a = b then 0 else 1

/-- The `less` closure passed to `sort.Slice` by the sorting generator's
main: kind ordinals first, then `strings.Compare` on names. -/
def declLess (a b : decl) : Bool :=
  let c := a.kind.toInt - b.kind.toInt
  if c ≠ 0 then decide (c < 0) else decide (stringsCompare a.Name b.Name < 0)

/-- Sorting of the descriptor list by `sort.Slice(g.decls, less)`: the
result is ordered so that a later element is never `less` than an earlier
one.  (The model uses insertion sort; the claims are about the sortedness
and membership of the result, which any correct sort satisfies.) -/
def sortDecls (ds : List decl) : List decl :=
  List.insertionSort (fun a b => declLess b a = false) ds

/-- Descriptor list the sorting generator's main emits: the scan result
sorted by `declLess`. -/
def mainDecls (f : GoFile) : Option (List decl) :=
  (scanFile f).map sortDecls

end gen

namespace genLegacy

open goast

/-- A declaration descriptor of the legacy generator: the kind is the
string "Const", "Func", "Type" or "Var".  The source field `Type` is a
Lean keyword, hence `typ`; the back-pointer `g` is dropped as in `gen`. -/
structure decl where
  Kind : String
  Name : String
  typ : String := ""
deriving DecidableEq

/-- TYPE branch of the legacy `generator.inspect`; identical to the
sorting generator's branch up to the kind representation. -/
def typeSpecsDecls : List Spec → Option (List decl)
| [] => some []
| .valueSpec _ :: _ => none
| .typeSpec ts :: rest =>
  match typeSpecsDecls rest with
  | none => none
  | some ds =>
    some (if isExported ts.Name then { Kind := "Type", Name := ts.Name } :: ds else ds)

/-- Inner loop of the legacy CONST/VAR branch over one ValueSpec. -/
def valueNamesDecls (kind : String) (typ : Option String) (values : List String) :
    Nat → List String → Option (List decl)
| _, [] => some []
| i, id :: rest =>
  if isExported id then
    match typ.orElse fun _ => values[i]? with
    | none => none
    | some tp =>
      match valueNamesDecls kind typ values (i + 1) rest with
      | none => none
      | some ds => some ({ Kind := kind, Name := id, typ := tp } :: ds)
  else valueNamesDecls kind typ values (i + 1) rest

/-- Legacy CONST/VAR branch over the group's specs. -/
def valueSpecsDecls (kind : String) : List Spec → Option (List decl)
| [] => some []
| .typeSpec _ :: _ => none
| .valueSpec vs :: rest =>
  match valueNamesDecls kind vs.typ vs.Values 0 vs.Names with
  | none => none
  | some ds =>
    match valueSpecsDecls kind rest with
    | none => none
    | some ds2 => some (ds ++ ds2)

/-- The `*ast.GenDecl` case of the legacy `generator.inspect` (the CONST
case sets kind to "Const" and falls through; a still-empty kind in the
VAR case becomes "Var"). -/
def inspectGen : Tok → List Spec → Option (List decl)
| .TYPE, specs => typeSpecsDecls specs
| .CONST, specs => valueSpecsDecls "Const" specs
| .VAR, specs => valueSpecsDecls "Var" specs
| .IMPORT, _ => some []

/-- Harvest over one body statement, as in `gen.inspectStmt`. -/
def inspectStmt : GoStmt → Option (List decl)
| .declStmt tok specs => inspectGen tok specs
| .otherStmt => some []

/-- Harvest over a function body, as in `gen.inspectBody`. -/
def inspectBody : List GoStmt → Option (List decl)
| [] => some []
| st :: rest =>
  match inspectStmt st, inspectBody rest with
  | some a, some b => some (a ++ b)
  | _, _ => none

/-- Harvest for one top-level declaration; the FuncDecl case is identical
to the sorting generator's. -/
def inspectDecl : GoDecl → Option (List decl)
| .genDecl tok specs => inspectGen tok specs
| .funcDecl recv name body =>
  if recv then inspectBody body
  else if !isExported name then inspectBody body
  else some [{ Kind := "Func", Name := name }]

/-- Harvest of the legacy `generator.generate` over a file. -/
def scanFile : GoFile → Option (List decl)
| [] => some []
| d :: rest =>
  match inspectDecl d, scanFile rest with
  | some a, some b => some (a ++ b)
  | _, _ => none

/-- Descriptor list the legacy main emits: it builds the registration
strings directly from `g.decls` after `g.generate()`, applying no sort,
so the emitted order is the scan order. -/
def mainDecls (f : GoFile) : Option (List decl) :=
  scanFile f

/-- Ordinal of a legacy kind string in the fixed kind order of the
repository (the `declKind` iota order: Const < Type < Func < Var). -/
def kindOrd : String → Int
| "Const" => 1
| "Type" => 2
| "Func" => 3
| "Var" => 4
| _ => 0

/-- The list is sorted by kind ascending, then name ascending (ordinal
string comparison) — the ordering the determinism claim asserts of the
emitted descriptor list. -/
def sortedByKindThenName (ds : List decl) : Prop :=
  List.Pairwise
    (fun a b => kindOrd a.Kind < kindOrd b.Kind ∨
      (kindOrd a.Kind = kindOrd b.Kind ∧ a.Name ≤ b.Name)) ds

end genLegacy

namespace pkgsyms

/-- The name-map half of the registry invariant: `names[n] == i` iff
`slice[i].Name() == n`. -/
def namesInv (m : List (String × Nat)) (slice : List Symbol) : Prop :=
  ∀ n i, mapFind m n = some i ↔ ∃ s, slice[i]? = some s ∧ s.Name = n

/-- The registry invariant: the name map is non-nil, it is inverse to the
slice's name projection, and no two records in the slice share a name. -/
def Symbols.Inv (syms : Symbols) : Prop :=
  ∃ m, syms.names = some m ∧ namesInv m syms.slice ∧
    syms.slice.Pairwise fun a b => a.Name ≠ b.Name

/-- Collections reachable through the public constructors and operations:
`MakeSymbols` followed by any sequence of `Add` calls.  `Lookup` does not
modify the collection (it is a pure function of it), so it needs no rule. -/
inductive Reachable : Symbols → Prop where
| make (capacity : Int) : Reachable (MakeSymbols capacity)
| add (syms : Symbols) (ss : List Symbol) : Reachable syms → Reachable (syms.Add ss)

end pkgsyms

namespace goast

/-- The source fragment of the scanner-classification claim:
`const Pi = 3`, `type Shape interface{}`, `func Area() int`, and the
receiver method `func (s Shape) Name() string`. -/
def classFile : GoFile :=
  [.genDecl .CONST [.valueSpec { Names := ["Pi"], typ := none, Values := ["3"] }],
   .genDecl .TYPE [.typeSpec { Name := "Shape" }],
   .funcDecl false "Area" [],
   .funcDecl true "Name" []]

/-- A file whose only top-level declaration is a method whose body
declares an exported constant: `func (s T) String() string { const Answer = 42; ... }`. -/
def nestedDeclFile : GoFile :=
  [.funcDecl true "String"
    [.declStmt .CONST [.valueSpec { Names := ["Answer"], typ := none, Values := ["42"] }]]]

/-- A file declaring `func Area() ...` before `const Pi = 3`, so the scan
order disagrees with the kind-then-name order. -/
def unsortedFile : GoFile :=
  [.funcDecl false "Area" [],
   .genDecl .CONST [.valueSpec { Names := ["Pi"], typ := none, Values := ["3"] }]]

end goast

namespace pkgsyms

/-- Go map reads after a write: the written key is found with the new
value, every other key is unaffected. -/
theorem mapFind_mapPut {α : Type} (m : List (String × α)) (k n : String) (v : α) :
    mapFind (mapPut m k v) n = if k = n then some v else mapFind m n := by
  induction m with
  | nil => simp [mapPut, mapFind]
  | cons kv rest ih =>
    obtain ⟨k0, v0⟩ := kv
    by_cases h0 : k0 = k
    · subst h0
      by_cases h1 : k0 = n <;> simp [mapPut, mapFind, h1]
    · by_cases h1 : k0 = n
      · subst h1
        have hkn : ¬ k = k0 := fun h => h0 h.symm
        simp [mapPut, mapFind, h0, hkn]
      · simp [mapPut, mapFind, h0, h1, ih]

/-- C1: adding a record whose name is already registered in a `Symbols`
collection is a silent no-op and reports no error: the collection is
returned unchanged — in particular the first-registered record of that
name, unchanged, is still what `Lookup` of that name returns afterwards.
(`Add` has no error result at all in the source; correspondingly the
embedded `Symbols.Add` is a total function into `Symbols`.) -/
theorem add_duplicate_noop (syms : Symbols) (s : Symbol)
    (m : List (String × Nat)) (hm : syms.names = some m)
    (hdup : mapFind m s.Name ≠ none) :
    syms.Add [s] = syms ∧
    (syms.Add [s]).Lookup s.Name = syms.Lookup s.Name := by
  obtain ⟨i, hi⟩ := Option.ne_none_iff_exists'.mp hdup
  have h1 : syms.Add [s] = syms := by
    obtain ⟨names, slice⟩ := syms
    have hm2 : names = some m := hm
    subst hm2
    simp [Symbols.Add, addAll, hi]
  exact ⟨h1, by rw [h1]⟩

/-- Witness for C1: after registering the record X ↦ 1, adding a
different record named X changes nothing and Lookup of X still returns
the first record. -/
theorem add_duplicate_noop_witness :
    ((MakeSymbols 1).Add [{ Name := "X", Get := .vInt 1 }]).Add
        [{ Name := "X", Get := .vInt 2 }] =
      (MakeSymbols 1).Add [{ Name := "X", Get := .vInt 1 }] ∧
    (((MakeSymbols 1).Add [{ Name := "X", Get := .vInt 1 }]).Add
        [{ Name := "X", Get := .vInt 2 }]).Lookup "X" =
      ((MakeSymbols 1).Add [{ Name := "X", Get := .vInt 1 }]).Lookup "X" :=
  add_duplicate_noop ((MakeSymbols 1).Add [{ Name := "X", Get := .vInt 1 }])
    { Name := "X", Get := .vInt 2 } [("X", 0)] (by decide) (by decide)

/-- C10: the zero-value `Symbols` collection (nil map, nil slice) is
total at the public interface: `Lookup` of any name returns a NotFound
carrying that symbol name rather than failing, and `Add` lazily
initializes the map and slice, after which the added symbol is
retrievable. -/
theorem zero_value_total (n : String) (s : Symbol) :
    zeroSymbols.Lookup n = .err { Pkg := "", Sym := n } ∧
    (zeroSymbols.Add [s]).names = some [(s.Name, 0)] ∧
    (zeroSymbols.Add [s]).slice = [s] ∧
    (zeroSymbols.Add [s]).Lookup s.Name = .ok s := by
  refine ⟨rfl, rfl, rfl, ?_⟩
  simp [zeroSymbols, Symbols.Add, addAll, mapFind, Symbols.Lookup]

/-- C7: the Const, Func and Type variants each expose `Name` and `Get`
and present exactly those method results as their `Symbol` interface
value, and `MakeType` unwraps its pointer argument.  The remaining part
of the claim is the code bug recorded for it: the source defines no
`Name` method on `Var` (and no `MakeVar` constructor), so `Var` does not
satisfy the `Symbol` interface and cannot be registered via `Add`, even
though `Var`'s own doc comment calls it a Symbol and the generator emits
`pkgsyms.MakeVar(...)` registration calls. -/
theorem symbol_variants_interface (n : String) (val : GoVal) (t : RType) :
    (MakeConst n val).toSymbol = { Name := n, Get := val } ∧
    (MakeFunc n val).toSymbol = { Name := n, Get := val } ∧
    (TypeSym.mk n t).toSymbol = { Name := n, Get := .vType t } ∧
    MakeType n (.ptr t) = some (TypeSym.mk n t) :=
  ⟨rfl, rfl, rfl, rfl⟩

/-- C3: the package index distinguishes creating from read-only access.
`Of` returns the stored entry on a hit; on a miss it creates an empty
entry (zero-valued `Symbols`), stores it, and returns it, so a repeated
`Of` of the same name yields the same single instance.  `Lookup` never
modifies the index, and on a miss returns a NotFound carrying the
package name. -/
theorem of_creates_lookup_reads (st : PkgIndex) (n : String) :
    (∀ p, mapFind st n = some p → Of st n = (p, st)) ∧
    (mapFind st n = none →
      Of st n = ({ Name := n, Symbols := zeroSymbols },
        mapPut st n { Name := n, Symbols := zeroSymbols })) ∧
    (Of (Of st n).2 n).1 = (Of st n).1 ∧
    (Lookup st n).2 = st ∧
    (mapFind st n = none → (Lookup st n).1 = .error { Pkg := n, Sym := "" }) := by
  refine ⟨?_, ?_, ?_, ?_, ?_⟩
  · intro p hp
    simp [Of, hp]
  · intro h
    simp [Of, h]
  · cases hf : mapFind st n with
    | some p => simp [Of, hf]
    | none =>
      have hstore : mapFind
          (mapPut st n ({ Name := n, Symbols := zeroSymbols } : Package)) n =
          some { Name := n, Symbols := zeroSymbols } := by
        rw [mapFind_mapPut]
        simp
      simp [Of, hf, hstore]
  · cases hf : mapFind st n with
    | some p => simp [Lookup, hf]
    | none => simp [Lookup, hf]
  · intro h
    simp [Lookup, h]

/-- Witness for C3 on the empty index and the package name "math": the
miss creates and stores the entry; the failed Lookup reports the package
name; a second Of returns the same instance. -/
theorem of_creates_lookup_reads_witness :
    Of ([] : PkgIndex) "math" =
      ({ Name := "math", Symbols := zeroSymbols },
        [("math", { Name := "math", Symbols := zeroSymbols })]) ∧
    (Lookup ([] : PkgIndex) "math").1 = .error { Pkg := "math", Sym := "" } ∧
    (Of (Of ([] : PkgIndex) "math").2 "math").1 = (Of ([] : PkgIndex) "math").1 :=
  ⟨(of_creates_lookup_reads [] "math").2.1 rfl,
   (of_creates_lookup_reads [] "math").2.2.2.2 rfl,
   (of_creates_lookup_reads [] "math").2.2.1⟩

end pkgsyms

namespace pkgsyms

/-- C8: a NotFound outcome renders a non-empty message combining whichever
of the package and symbol context is populated: with only the package set
the message mentions only that package, with only the symbol set only that
symbol, and with both set it mentions both (package first).  The
hypotheses are the source's own populatedness tests `len(...) > 0`. -/
theorem notFound_error_message (p s : String)
    (hp : 0 < p.length) (hs : 0 < s.length) :
    NotFound.Error { Pkg := p, Sym := "" } =
      "package " ++ (goQuote p ++ (": " ++ "not found")) ∧
    NotFound.Error { Pkg := "", Sym := s } =
      "symbol " ++ (goQuote s ++ (": " ++ "not found")) ∧
    NotFound.Error { Pkg := p, Sym := s } =
      "package " ++ (goQuote p ++ (": " ++
        ("symbol " ++ (goQuote s ++ (": " ++ "not found"))))) ∧
    0 < (NotFound.Error { Pkg := p, Sym := "" }).length ∧
    0 < (NotFound.Error { Pkg := "", Sym := s }).length ∧
    0 < (NotFound.Error { Pkg := p, Sym := s }).length := by
  have posl : ∀ a b : String, 0 < a.length → 0 < (a ++ b).length := by
    intro a b h
    rw [String.length_append]
    omega
  have e1 : NotFound.Error { Pkg := p, Sym := "" } =
      "package " ++ (goQuote p ++ (": " ++ "not found")) := by
    simp [NotFound.Error, hp, String.append_assoc]
  have e2 : NotFound.Error { Pkg := "", Sym := s } =
      "symbol " ++ (goQuote s ++ (": " ++ "not found")) := by
    simp [NotFound.Error, hs, String.append_assoc]
  have e3 : NotFound.Error { Pkg := p, Sym := s } =
      "package " ++ (goQuote p ++ (": " ++
        ("symbol " ++ (goQuote s ++ (": " ++ "not found"))))) := by
    simp [NotFound.Error, hp, hs, String.append_assoc]
  refine ⟨e1, e2, e3, ?_, ?_, ?_⟩
  · rw [e1]
    exact posl _ _ (by decide)
  · rw [e2]
    exact posl _ _ (by decide)
  · rw [e3]
    exact posl _ _ (by decide)

/-- Witness for C8 at the package name "fmt" and symbol name "Pi". -/
theorem notFound_error_message_witness :
    NotFound.Error { Pkg := "fmt", Sym := "" } =
      "package " ++ (goQuote "fmt" ++ (": " ++ "not found")) ∧
    NotFound.Error { Pkg := "", Sym := "Pi" } =
      "symbol " ++ (goQuote "Pi" ++ (": " ++ "not found")) ∧
    NotFound.Error { Pkg := "fmt", Sym := "Pi" } =
      "package " ++ (goQuote "fmt" ++ (": " ++
        ("symbol " ++ (goQuote "Pi" ++ (": " ++ "not found"))))) ∧
    0 < (NotFound.Error { Pkg := "fmt", Sym := "" }).length ∧
    0 < (NotFound.Error { Pkg := "", Sym := "Pi" }).length ∧
    0 < (NotFound.Error { Pkg := "fmt", Sym := "Pi" }).length :=
  notFound_error_message "fmt" "Pi" (by decide) (by decide)

/-- C9: round-trip for symbol values.  A Constant built from a name and a
value returns exactly that value from Get, also after registration and
Lookup by that name; for a Variable over a valid backing storage cell,
Set of a type-compatible value succeeds, Get afterwards returns that
value, and the backing cell itself also holds it. -/
theorem symbol_value_round_trip (n : String) (val : GoVal) (v : Var) (h : Heap)
    (x old : GoVal) (h1 : h[v.addr]? = some old) (h2 : old.tag = x.tag) :
    (MakeConst n val).Get = val ∧
    ((MakeSymbols 0).Add [(MakeConst n val).toSymbol]).Lookup n =
      .ok (MakeConst n val).toSymbol ∧
    v.Set h x = some (h.set v.addr x) ∧
    v.Get (h.set v.addr x) = some x ∧
    (h.set v.addr x)[v.addr]? = some x := by
  have hlt : v.addr < h.length := by
    rcases List.getElem?_eq_some_iff.mp h1 with ⟨hl, _⟩
    exact hl
  have hset : (h.set v.addr x)[v.addr]? = some x := List.getElem?_set_self hlt
  refine ⟨rfl, ?_, ?_, hset, hset⟩
  · simp [MakeSymbols, Symbols.Add, addAll, mapFind, Symbols.Lookup,
      Const.toSymbol, Const.Name, Const.Get, MakeConst]
  · simp [Var.Set, h1, h2]

/-- Witness for C9: the constant N ↦ 42 round-trips through Add and
Lookup, and a variable over cell 0 of the one-cell heap [0] observes 7
everywhere after Set 7. -/
theorem symbol_value_round_trip_witness :
    (MakeConst "N" (.vInt 42)).Get = .vInt 42 ∧
    ((MakeSymbols 0).Add [(MakeConst "N" (.vInt 42)).toSymbol]).Lookup "N" =
      .ok (MakeConst "N" (.vInt 42)).toSymbol ∧
    (Var.mk "V" 0).Set [.vInt 0] (.vInt 7) =
      some (([.vInt 0] : Heap).set 0 (.vInt 7)) ∧
    (Var.mk "V" 0).Get (([.vInt 0] : Heap).set 0 (.vInt 7)) = some (.vInt 7) ∧
    (([.vInt 0] : Heap).set 0 (.vInt 7))[0]? = some (.vInt 7) :=
  symbol_value_round_trip "N" (.vInt 42) (Var.mk "V" 0) [.vInt 0]
    (.vInt 7) (.vInt 0) rfl rfl

end pkgsyms

namespace pkgsyms

/-- The invariant holds of the empty map and empty slice. -/
theorem namesInv_nil : namesInv [] [] := by
  intro n i
  constructor
  · intro h
    cases h
  · rintro ⟨s, hs, _⟩
    simp at hs

/-- One miss-step of the Add loop preserves the map-slice correspondence:
binding a fresh name to the append position keeps `names[n] == i` iff
`slice[i].Name() == n`. -/
theorem namesInv_step (m : List (String × Nat)) (slice : List Symbol) (s : Symbol)
    (h1 : namesInv m slice) (hf : mapFind m s.Name = none) :
    namesInv (mapPut m s.Name slice.length) (slice ++ [s]) := by
  intro n i
  rw [mapFind_mapPut]
  by_cases hn : s.Name = n
  · subst hn
    rw [if_pos rfl]
    constructor
    · intro hi
      injection hi with hi
      subst hi
      exact ⟨s, List.getElem?_concat_length slice s, rfl⟩
    · rintro ⟨t, ht, hname⟩
      rcases Nat.lt_trichotomy i slice.length with hlt | heq | hgt
      · rw [List.getElem?_append_left hlt] at ht
        have hsome := (h1 s.Name i).mpr ⟨t, ht, hname⟩
        rw [hf] at hsome
        cases hsome
      · rw [heq]
      · have hnone : (slice ++ [s])[i]? = none := by
          apply List.getElem?_eq_none
          simp only [List.length_append, List.length_cons, List.length_nil]
          omega
        rw [hnone] at ht
        cases ht
  · rw [if_neg hn, h1 n i]
    constructor
    · rintro ⟨t, ht, hname⟩
      have hlt : i < slice.length := by
        rcases List.getElem?_eq_some_iff.mp ht with ⟨hl, _⟩
        exact hl
      exact ⟨t, by rw [List.getElem?_append_left hlt]; exact ht, hname⟩
    · rintro ⟨t, ht, hname⟩
      rcases Nat.lt_trichotomy i slice.length with hlt | heq | hgt
      · rw [List.getElem?_append_left hlt] at ht
        exact ⟨t, ht, hname⟩
      · subst heq
        rw [List.getElem?_concat_length] at ht
        injection ht with ht
        subst ht
        exact absurd hname hn
      · have hnone : (slice ++ [s])[i]? = none := by
          apply List.getElem?_eq_none
          simp only [List.length_append, List.length_cons, List.length_nil]
          omega
        rw [hnone] at ht
        cases ht

/-- One miss-step of the Add loop keeps the slice names pairwise
distinct: the appended symbol's name is fresh, since a clash would put it
in the map. -/
theorem pairwise_step (m : List (String × Nat)) (slice : List Symbol) (s : Symbol)
    (h1 : namesInv m slice) (hf : mapFind m s.Name = none)
    (h2 : slice.Pairwise fun a b => a.Name ≠ b.Name) :
    (slice ++ [s]).Pairwise fun a b => a.Name ≠ b.Name := by
  rw [List.pairwise_append]
  refine ⟨h2, by simp, ?_⟩
  intro a ha b hb
  rw [List.mem_singleton] at hb
  intro hname
  rw [hb] at hname
  obtain ⟨i, hi⟩ := List.getElem?_of_mem ha
  have hsome := (h1 s.Name i).mpr ⟨a, hi, hname⟩
  rw [hf] at hsome
  cases hsome

/-- The Add loop preserves the full invariant. -/
theorem addAll_inv (ss : List Symbol) :
    ∀ (m : List (String × Nat)) (slice : List Symbol),
      namesInv m slice →
      (slice.Pairwise fun a b => a.Name ≠ b.Name) →
      namesInv (addAll m slice ss).1 (addAll m slice ss).2 ∧
        (addAll m slice ss).2.Pairwise fun a b => a.Name ≠ b.Name := by
  induction ss with
  | nil =>
    intro m slice h1 h2
    exact ⟨h1, h2⟩
  | cons s rest ih =>
    intro m slice h1 h2
    cases hf : mapFind m s.Name with
    | some i =>
      have heq : addAll m slice (s :: rest) = addAll m slice rest := by
        simp [addAll, hf]
      rw [heq]
      exact ih m slice h1 h2
    | none =>
      have heq : addAll m slice (s :: rest) =
          addAll (mapPut m s.Name slice.length) (slice ++ [s]) rest := by
        simp [addAll, hf]
      rw [heq]
      exact ih _ _ (namesInv_step m slice s h1 hf) (pairwise_step m slice s h1 hf h2)

/-- Both branches of `MakeSymbols` produce the same collection. -/
theorem MakeSymbols_eq (c : Int) :
    MakeSymbols c = { names := some [], slice := [] } := by
  unfold MakeSymbols
  split <;> rfl

/-- C2: every `Symbols` collection reachable through the public
operations — `MakeSymbols` followed by any sequence of `Add` calls, with
`Lookup` a pure reader — satisfies the invariant: the name map is
present, `names[n] == i` iff `slice[i].Name() == n`, and no two records
in the slice share a name; every operation preserves this. -/
theorem reachable_invariant (syms : Symbols) (h : Reachable syms) :
    Symbols.Inv syms := by
  induction h with
  | make capacity =>
    rw [MakeSymbols_eq]
    exact ⟨[], rfl, namesInv_nil, List.Pairwise.nil⟩
  | add syms ss hr ih =>
    obtain ⟨m, hm, h1, h2⟩ := ih
    have hres := addAll_inv ss m syms.slice h1 h2
    have hAdd : syms.Add ss =
        { names := some (addAll m syms.slice ss).1,
          slice := (addAll m syms.slice ss).2 } := by
      simp [Symbols.Add, hm]
    rw [hAdd]
    exact ⟨(addAll m syms.slice ss).1, rfl, hres.1, hres.2⟩

/-- Witness for C2: the invariant of a concretely built collection. -/
theorem reachable_invariant_witness :
    Symbols.Inv ((MakeSymbols 2).Add [{ Name := "A", Get := .vInt 1 }]) :=
  reachable_invariant ((MakeSymbols 2).Add [{ Name := "A", Get := .vInt 1 }])
    (Reachable.add (MakeSymbols 2) [{ Name := "A", Get := .vInt 1 }] (Reachable.make 2))

end pkgsyms

namespace gen

open goast

/-- C4: on the fragment `const Pi = 3`, `type Shape interface{}`,
`func Area() int`, `func (s Shape) Name() string` the scan produces
exactly three descriptors — one Constant (Pi), one Type (Shape), one
Function (Area) — and none for the receiver method Name; and in general a
top-level function declaration yields a Function descriptor iff it has no
receiver and an exported name. -/
theorem scan_classification (recv : Bool) (name : String) :
    scanFile classFile =
      some [{ kind := .constDecl, Name := "Pi", typ := "3" },
            { kind := .typeDecl, Name := "Shape" },
            { kind := .funcDecl, Name := "Area" }] ∧
    inspectDecl (.funcDecl recv name []) =
      some (if !recv && isExported name
        then [{ kind := .funcDecl, Name := name }] else []) := by
  constructor
  · decide
  · cases recv with
    | true => simp [inspectDecl, inspectBody]
    | false =>
      cases hex : isExported name <;> simp [inspectDecl, inspectBody, hex]

/-- C5 counterexample: the claim says a declaration inside a function
body (including a method body) yields no descriptor; but on a file whose
only top-level declaration is a method whose body declares the exported
constant Answer, both scanner versions produce a descriptor for Answer —
inspect returns true for a FuncDecl with a receiver, so the traversal
descends into its body. -/
theorem scan_descends_counterexample :
    scanFile nestedDeclFile =
      some [{ kind := .constDecl, Name := "Answer", typ := "42" }] ∧
    genLegacy.scanFile nestedDeclFile =
      some [{ Kind := "Const", Name := "Answer", typ := "42" }] := by
  exact ⟨by decide, by decide⟩

/-- C5 amended: the traversal never descends into a handled node — an
exported receiver-less top-level function contributes exactly its own
descriptor, whatever its body contains — but it does descend into the
bodies of methods and of unexported functions, where a declaration
statement is scanned exactly as the same const/var/type group would be
at top level. -/
theorem scan_descent_amended (name uname : String) (body : List GoStmt)
    (tok : Tok) (specs : List Spec)
    (hex : isExported name = true) (hun : isExported uname = false) :
    inspectDecl (.funcDecl false name body) =
      some [{ kind := .funcDecl, Name := name }] ∧
    inspectDecl (.funcDecl true name [.declStmt tok specs]) =
      inspectGen tok specs ∧
    inspectDecl (.funcDecl false uname [.declStmt tok specs]) =
      inspectGen tok specs := by
  refine ⟨?_, ?_, ?_⟩
  · simp [inspectDecl, hex]
  · cases h : inspectGen tok specs <;>
      simp [inspectDecl, inspectBody, inspectStmt, h]
  · cases h : inspectGen tok specs <;>
      simp [inspectDecl, inspectBody, inspectStmt, hun, h]

/-- Witness for the amended C5 at the exported name Area, the unexported
name area, and a const group declaring the exported Inner. -/
theorem scan_descent_amended_witness :
    inspectDecl (.funcDecl false "Area"
      [.declStmt .CONST
        [.valueSpec { Names := ["Inner"], typ := none, Values := ["1"] }]]) =
      some [{ kind := .funcDecl, Name := "Area" }] ∧
    inspectDecl (.funcDecl true "Area"
      [.declStmt .CONST
        [.valueSpec { Names := ["Inner"], typ := none, Values := ["1"] }]]) =
      inspectGen .CONST
        [.valueSpec { Names := ["Inner"], typ := none, Values := ["1"] }] ∧
    inspectDecl (.funcDecl false "area"
      [.declStmt .CONST
        [.valueSpec { Names := ["Inner"], typ := none, Values := ["1"] }]]) =
      inspectGen .CONST
        [.valueSpec { Names := ["Inner"], typ := none, Values := ["1"] }] :=
  scan_descent_amended "Area" "area"
    [.declStmt .CONST
      [.valueSpec { Names := ["Inner"], typ := none, Values := ["1"] }]]
    .CONST [.valueSpec { Names := ["Inner"], typ := none, Values := ["1"] }]
    (by decide) (by decide)

/-- C6 counterexample: the legacy generator's main applies no sort
between the scan and the emission, so on a file declaring `func Area()`
before `const Pi = 3` it emits the Function descriptor before the
Constant descriptor — an order that is not sorted by kind ascending then
name ascending. -/
theorem emit_order_counterexample :
    genLegacy.mainDecls unsortedFile =
      some [{ Kind := "Func", Name := "Area" },
            { Kind := "Const", Name := "Pi", typ := "3" }] ∧
    ¬ genLegacy.sortedByKindThenName
        [{ Kind := "Func", Name := "Area" },
         { Kind := "Const", Name := "Pi", typ := "3" }] := by
  constructor
  · decide
  · intro hsort
    rcases hsort with _ | ⟨hrel, _⟩
    have h := hrel { Kind := "Const", Name := "Pi", typ := "3" } (by simp)
    have hF : genLegacy.kindOrd "Func" = 3 := by decide
    have hC : genLegacy.kindOrd "Const" = 1 := by decide
    rcases h with hlt | ⟨heq, _⟩
    · rw [hF, hC] at hlt
      omega
    · rw [hF, hC] at heq
      omega

/-- Whether the sort comparator holds: strict kind-then-name
lexicographic order. -/
theorem declLess_iff (a b : decl) :
    declLess a b = true ↔
      (a.kind.toInt < b.kind.toInt ∨
        (a.kind.toInt = b.kind.toInt ∧ a.Name < b.Name)) := by
  unfold declLess stringsCompare
  by_cases hk : a.kind.toInt - b.kind.toInt ≠ 0
  · rw [if_pos hk]
    simp only [decide_eq_true_eq]
    constructor
    · intro h
      exact Or.inl (by omega)
    · rintro (h | ⟨h, _⟩) <;> omega
  · rw [if_neg hk]
    push_neg at hk
    have hk2 : a.kind.toInt = b.kind.toInt := by omega
    simp only [decide_eq_true_eq]
    constructor
    · intro h
      by_cases hs : a.Name < b.Name
      · exact Or.inr ⟨hk2, hs⟩
      · rw [if_neg hs] at h
        by_cases he : a.Name = b.Name
        · rw [if_pos he] at h
          omega
        · rw [if_neg he] at h
          omega
    · rintro (h | ⟨_, hs⟩)
      · omega
      · rw [if_pos hs]
        omega

/-- The non-strict view of the comparator: a later element is not `less`
than an earlier one exactly when the pair is in kind-then-name order. -/
theorem declLE_iff (a b : decl) :
    (declLess b a = false) ↔
      (a.kind.toInt < b.kind.toInt ∨
        (a.kind.toInt = b.kind.toInt ∧ a.Name ≤ b.Name)) := by
  rw [← Bool.not_eq_true (declLess b a), declLess_iff]
  push_neg
  constructor
  · rintro ⟨h1, h2⟩
    rcases lt_trichotomy a.kind.toInt b.kind.toInt with hk | hk | hk
    · exact Or.inl hk
    · exact Or.inr ⟨hk, h2 hk.symm⟩
    · omega
  · rintro (h | ⟨h1, h2⟩)
    · exact ⟨by omega, fun he => absurd he (by omega)⟩
    · exact ⟨by omega, fun he => h2⟩

/-- C6 amended: the sorting generator's main does emit its descriptor
list sorted by kind ascending (in the scanner's ordinal order
Const < Type < Func < Var) then by name ascending (ordinal string
comparison), and the sorted list is a permutation of the scanned one;
since scan and sort are functions of the input file, repeated runs on
unchanged input produce identical output.  (The legacy main emits in
scan order instead — the recorded counterexample.) -/
theorem sort_kind_then_name (ds : List decl) :
    (sortDecls ds).Perm ds ∧
    List.Pairwise (fun a b : decl =>
      a.kind.toInt < b.kind.toInt ∨
        (a.kind.toInt = b.kind.toInt ∧ a.Name ≤ b.Name)) (sortDecls ds) := by
  have htot : IsTotal decl (fun a b => declLess b a = false) := by
    constructor
    intro a b
    rw [declLE_iff, declLE_iff]
    rcases lt_trichotomy a.kind.toInt b.kind.toInt with hk | hk | hk
    · exact Or.inl (Or.inl hk)
    · rcases le_total a.Name b.Name with hs | hs
      · exact Or.inl (Or.inr ⟨hk, hs⟩)
      · exact Or.inr (Or.inr ⟨hk.symm, hs⟩)
    · exact Or.inr (Or.inl hk)
  have htrans : IsTrans decl (fun a b => declLess b a = false) := by
    constructor
    intro a b c hab hbc
    rw [declLE_iff] at hab hbc ⊢
    rcases hab with h1 | ⟨h1, h2⟩ <;> rcases hbc with h3 | ⟨h3, h4⟩
    · exact Or.inl (by omega)
    · exact Or.inl (by omega)
    · exact Or.inl (by omega)
    · exact Or.inr ⟨by omega, le_trans h2 h4⟩
  haveI := htot
  haveI := htrans
  constructor
  · exact List.perm_insertionSort (fun a b : decl => declLess b a = false) ds
  · have hsorted :=
      List.sorted_insertionSort (fun a b : decl => declLess b a = false) ds
    exact List.Pairwise.imp (fun hab => (declLE_iff _ _).mp hab) hsorted

end gen
